import Mathlib

/-!
Verification of the credential-pool and rotation engine of the clewdr
repository (src/lib/config.rs and src/lib/state.rs), via a shallow
embedding of the relevant Rust functions as Lean definitions.

Strings are modelled as Lean strings (lists of characters); the regular
expressions appearing in the source are translated into explicit character
scanning functions, and `u32`/`u64`/`usize` counters are modelled as `Nat`
(none of the verified properties involve wrap-around).  File I/O
(`Config::save`) is modelled as a persistence-event counter, and the
asynchronous cooldown task spawned by `cookie_rotate` is modelled by its
immediate effects (flag set, counter reset); the sleep and the later flag
clear are not modelled.
-/

namespace Clewdr

/-! ## Character helpers (models of the Rust `char` predicates used) -/

/-- Model of Rust `char::is_ascii_alphanumeric`. -/
def isAsciiAlphanumeric (c : Char) : Bool :=
  ('0' ≤ c && c ≤ '9') || ('A' ≤ c && c ≤ 'Z') || ('a' ≤ c && c ≤ 'z')

/-- Model of the regex character class `[0-9A-Za-z_-]` used by the cookie
wire-format pattern in `Cookie::validate` (config.rs line 42). -/
def isUrlSafe (c : Char) : Bool :=
  isAsciiAlphanumeric c || c = '_' || c = '-'

/-- Model of the regex class `\s` restricted to the ASCII range (the inputs
of interest are ASCII): space, tab, newline, carriage return, vertical tab,
form feed. -/
def isWsChar (c : Char) : Bool :=
  c = ' ' || c = '\t' || c = '\n' || c = '\r' || c = '\x0b' || c = '\x0c'

/-- Model of ASCII lower-casing, used for the case-insensitive regex in
`AppState::update_cookies` (state.rs line 104). -/
def asciiLower (c : Char) : Char :=
  if 'A' ≤ c && c ≤ 'Z' then Char.ofNat (c.toNat + 32) else c

/-- Decides whether `pat` is an initial segment of `l` (explicit recursive
model of anchored literal regex matching). -/
def startsWith : List Char → List Char → Bool
  | [], _ => true
  | _ :: _, [] => false
  | p :: ps, c :: cs => p = c && startsWith ps cs

theorem startsWith_length_le {pat l : List Char} (h : startsWith pat l = true) :
    pat.length ≤ l.length := by
  induction pat generalizing l with
  | nil => simp
  | cons p ps ih =>
    cases l with
    | nil => simp [startsWith] at h
    | cons c cs =>
      simp only [startsWith, Bool.and_eq_true] at h
      simpa using ih h.2

theorem startsWith_append (pat rest : List Char) :
    startsWith pat (pat ++ rest) = true := by
  induction pat with
  | nil => rfl
  | cons p ps ih => simp [startsWith, ih]

theorem startsWith_iff {pat l : List Char} :
    startsWith pat l = true ↔ ∃ rest, l = pat ++ rest := by
  constructor
  · intro h
    induction pat generalizing l with
    | nil => exact ⟨l, rfl⟩
    | cons p ps ih =>
      cases l with
      | nil => simp [startsWith] at h
      | cons c cs =>
        simp only [startsWith, Bool.and_eq_true, decide_eq_true_eq] at h
        obtain ⟨rest, hr⟩ := ih h.2
        exact ⟨rest, by simp [h.1, hr]⟩
  · rintro ⟨rest, rfl⟩
    exact startsWith_append pat rest

/-- Model of Rust `str::trim_start_matches(pat)`: repeatedly removes the
leading occurrence of `pat` while the string starts with it. -/
def trimStartMatches (pat : List Char) (l : List Char) : List Char :=
  if h : pat ≠ [] ∧ startsWith pat l = true then
    trimStartMatches pat (l.drop pat.length)
  else l
termination_by l.length
decreasing_by
  have hle := startsWith_length_le h.2
  have hpos : 0 < pat.length := List.length_pos.mpr h.1
  simp only [List.length_drop]
  omega

/-- Model of Rust `str::trim_end_matches(pat)`: repeatedly removes the
trailing occurrence of `pat`, implemented by stripping the reversed pattern
from the reversed string. -/
def trimEndMatches (pat : List Char) (l : List Char) : List Char :=
  (trimStartMatches pat.reverse l.reverse).reverse

/-- Model of Rust `str::trim` (whitespace removal at both ends). -/
def trimChars (l : List Char) : List Char :=
  ((l.dropWhile isWsChar).reverse.dropWhile isWsChar).reverse

/-! ## Cookie (config.rs lines 34-66) -/

/-- Embedding of `struct Cookie` (config.rs lines 34-37): a wrapper around
the normalized token string, modelled as a list of characters. -/
structure Cookie where
  inner : List Char
deriving Repr, DecidableEq

/-- Character filter of `impl From<&str> for Cookie` (config.rs line 52):
only `'='`, `'_'`, `'-'` and ASCII alphanumeric characters are kept. -/
def allowedChar (c : Char) : Bool :=
  isAsciiAlphanumeric c || c = '=' || c = '_' || c = '-'

/-- Literal pattern `sessionKey=` stripped by `From<&str>` (config.rs
line 54). -/
def sessionKeyPat : List Char := ("sessionKey=").data

/-- Embedding of the normalization performed by `impl From<&str> for Cookie`
(config.rs lines 47-66): keep only allowed characters, then strip every
leading `sessionKey=` envelope (`trim_start_matches`). -/
def normalize (l : List Char) : List Char :=
  trimStartMatches sessionKeyPat (l.filter allowedChar)

/-- Embedding of `Cookie::from(&str)` (config.rs lines 47-66); the format
warning emitted there has no effect on the value and is not modelled. -/
def Cookie.fromStr (s : String) : Cookie :=
  ⟨normalize s.data⟩

/-! ## The cookie wire-format pattern (config.rs line 42)

The regex `sk-ant-sid01-[0-9A-Za-z_-]{86}-[0-9A-Za-z_-]{6}AA` is translated
into an explicit matcher: `matchLit` consumes a literal, `takeCount`
consumes exactly `n` characters satisfying a class, and `matchPatAt` chains
the five parts of the pattern.  `Regex::is_match` is unanchored, so
`containsPat` tries the pattern at every suffix. -/

/-- Consumes the literal `lit` from the front of `l`, returning the rest. -/
def matchLit : List Char → List Char → Option (List Char)
  | [], l => some l
  | _ :: _, [] => none
  | p :: ps, c :: cs => if p = c then matchLit ps cs else none

/-- Consumes exactly `n` characters satisfying `p` from the front of `l`. -/
def takeCount (p : Char → Bool) : Nat → List Char → Option (List Char)
  | 0, l => some l
  | _ + 1, [] => none
  | n + 1, c :: cs => if p c then takeCount p n cs else none

/-- Matches the full wire pattern anchored at the front of `l` (possibly
followed by further characters, as in an unanchored regex match). -/
def matchPatAt (l : List Char) : Bool :=
  (((((matchLit ("sk-ant-sid01-").data l).bind
      (takeCount isUrlSafe 86)).bind
      (matchLit ("-").data)).bind
      (takeCount isUrlSafe 6)).bind
      (matchLit ("AA").data)).isSome

/-- Unanchored search: does some suffix of `l` match the pattern?  This is
the semantics of `Regex::is_match`. -/
def containsPat : List Char → Bool
  | [] => matchPatAt []
  | c :: cs => matchPatAt (c :: cs) || containsPat cs

/-- Embedding of `Cookie::validate` (config.rs lines 40-45): an unanchored
regex match of the wire pattern against the stored token. -/
def Cookie.validate (c : Cookie) : Bool :=
  containsPat c.inner

/-! ## Pool data model (config.rs lines 10-32, 100-214) -/

/-- Embedding of `enum UselessCookie` (config.rs lines 10-18): a
disqualified credential archived with its disqualification reason. -/
inductive UselessCookie where
  | Null (c : Cookie)
  | Disabled (c : Cookie)
  | Unverified (c : Cookie)
  | Overlap (c : Cookie)
  | Banned (c : Cookie)
  | Invalid (c : Cookie)
deriving Repr, DecidableEq

/-- Modelled from the spec: `RotationReason` (§3) / `UselessReason`.  The
enum is imported by state.rs from config.rs but its declaration is not in
src; the spec lists `CoolDown` (no payload), `Exhausted(retryAfter)`, and
the six permanent disqualification reasons.  The retry-after payload bound
to `i` in state.rs line 155 is modelled as a `Nat` timestamp. -/
inductive UselessReason where
  | CoolDown
  | Exhausted (retryAfter : Nat)
  | Null
  | Disabled
  | Unverified
  | Overlap
  | Banned
  | Invalid
deriving Repr, DecidableEq

/-- Embedding of `struct CookieInfo` (config.rs lines 20-24), extended with
the field assigned by state.rs line 157.

Modelled from the spec: the `reset_time` field (the credential's "optional
scheduled-retry timestamp (set when temporarily exhausted)", §3) is written
by `AppState::cookie_rotate` but the field declaration is missing from the
src copy of config.rs; it is modelled as an optional `Nat` timestamp,
`none` until scheduled. -/
structure CookieInfo where
  model : Option String
  cookie : Cookie
  reset_time : Option Nat := none
deriving Repr, DecidableEq

/-- Embedding of `CookieInfo::is_pro` (config.rs lines 27-31). -/
def CookieInfo.is_pro (info : CookieInfo) : Bool :=
  match info.model with
  | none => false
  | some m => (m.splitOn "claude").length > 1 && (m.splitOn "_pro").length > 1

/-- Embedding of `struct Settings` (config.rs lines 139-160). -/
structure Settings where
  renew_always : Bool
  retry_regenerate : Bool
  prompt_experiments : Bool
  system_experiments : Bool
  prevent_imperson : Bool
  all_samples : Bool
  no_samples : Bool
  strip_assistant : Bool
  strip_human : Bool
  pass_params : Bool
  clear_flags : Bool
  preserve_chats : Bool
  log_messages : Bool
  full_colon : Bool
  padtxt : List Char
  xml_plot : Bool
  skip_restricted : Bool
  artifacts : Bool
  superfetch : Bool
deriving Repr, DecidableEq

/-- Embedding of `struct Config` (config.rs lines 100-137).  The numeric
fields (`u32`, `u16`) are modelled as `Nat`; free-text fields as character
lists.

Modelled from the spec: the trailing scalar tuning fields
`max_cons_requests` (the "max concurrent requests" setting read by
state.rs line 75) and `wait_time` (the "post-rotation wait time" read by
state.rs line 176) are used by state.rs but their declarations are missing
from the src copy of config.rs (§6: "scalar tuning settings (max concurrent
requests, post-rotation wait time, buffer sizes, feature flags)"). -/
structure Config where
  cookie : Cookie
  cookie_array : List CookieInfo
  wasted_cookie : List UselessCookie
  unknown_models : List (List Char)
  cookie_counter : Nat
  cookie_index : Nat
  proxy_password : List Char
  ip : List Char
  port : Nat
  local_tunnel : Bool
  buffer_size : Nat
  system_interval : Nat
  rproxy : List Char
  api_rproxy : List Char
  placeholder_token : List Char
  placeholder_byte : List Char
  prompt_experiment_first : List Char
  prompt_experiment_next : List Char
  personality_format : List Char
  scenario_format : List Char
  settings : Settings
  max_cons_requests : Nat
  wait_time : Nat
deriving Repr, DecidableEq

/-- Embedding of `impl Default for Settings` (config.rs lines 190-214). -/
def Settings.default : Settings where
  renew_always := true
  retry_regenerate := false
  prompt_experiments := true
  system_experiments := true
  prevent_imperson := true
  all_samples := false
  no_samples := false
  strip_assistant := false
  strip_human := false
  pass_params := false
  clear_flags := true
  preserve_chats := false
  log_messages := true
  full_colon := true
  padtxt := ("1000,1000,15000").data
  xml_plot := true
  skip_restricted := false
  artifacts := false
  superfetch := true

/-- Embedding of `impl Default for Config` (config.rs lines 162-188); the
two spec-modelled tuning fields default to the spec's reading of them as
positive scalars (their concrete defaults are absent from src and are
irrelevant to every claim below). -/
def Config.default : Config where
  cookie := Cookie.fromStr "SET_YOUR_COOKIE_HERE"
  cookie_array := []
  wasted_cookie := []
  unknown_models := []
  cookie_counter := 3
  cookie_index := 0
  proxy_password := []
  ip := ("127.0.0.1").data
  port := 8444
  local_tunnel := false
  buffer_size := 1
  system_interval := 3
  rproxy := []
  api_rproxy := []
  placeholder_token := []
  placeholder_byte := []
  prompt_experiment_first := []
  prompt_experiment_next := []
  personality_format := ("\x7b\x7bchar\x7d\x7d\x27s personality: \x7b\x7bpersonality\x7d\x7d").data
  scenario_format := ("Dialogue scenario: \x7b\x7bscenario\x7d\x7d").data
  settings := Settings.default
  max_cons_requests := 3
  wait_time := 15

/-- Embedding of `Config::cookie_array_len` (called by state.rs line 62;
its body is not in src, but its meaning — the length of `cookie_array` —
is fixed by its name and by the spec's `initialPoolSize`). -/
def Config.cookie_array_len (cfg : Config) : Nat :=
  cfg.cookie_array.length

/-- Embedding of `Config::current_cookie_info` (config.rs lines 246-252):
returns a clone of the entry at `cookie_index` when that index is in
range, `None` otherwise. -/
def Config.current_cookie_info (cfg : Config) : Option CookieInfo :=
  if h : cfg.cookie_index < cfg.cookie_array.length then
    some (cfg.cookie_array.get ⟨cfg.cookie_index, h⟩)
  else
    none

/-- Embedding of `Config::validate` (config.rs lines 254-274).  The call
`rng().random_range(0..len)` is modelled by the oracle `rand`: theorems
about this function assume only the `random_range` contract, namely that
`rand n < n` for `n > 0`. -/
def Config.validate (cfg : Config) (rand : Nat → Nat) : Config :=
  let cfg :=
    if cfg.cookie_array ≠ [] ∧ cfg.cookie_index ≥ cfg.cookie_array.length then
      { cfg with cookie_index := rand cfg.cookie_array.length }
    else cfg
  { cfg with
    unknown_models := cfg.unknown_models.map trimChars
    ip := trimChars cfg.ip
    rproxy := trimChars cfg.rproxy
    api_rproxy :=
      trimEndMatches ("/v1").data (trimEndMatches ("/").data (trimChars cfg.api_rproxy))
    settings := { cfg.settings with padtxt := trimChars cfg.settings.padtxt } }

/-! ## Pool mutation operations called by state.rs but missing from src -/

/-- Modelled from the spec: `advance()` (§4.2), the body of
`Config::rotate_cookie` called at state.rs lines 153 and 161 but not
present in the src copy of config.rs: "moves `currentIndex` forward
circularly over the active set only". -/
def Config.rotate_cookie (cfg : Config) : Config :=
  if cfg.cookie_array.length = 0 then cfg
  else { cfg with cookie_index := (cfg.cookie_index + 1) % cfg.cookie_array.length }

/-- Wraps a permanent disqualification reason around a credential, pairing
it as the spec's `DisqualifiedCredential` (§3); the two temporary reasons
are never passed to `cookie_cleaner` by `cookie_rotate` and wrap to
`none`. -/
def UselessReason.wrap (r : UselessReason) (c : Cookie) : Option UselessCookie :=
  match r with
  | .CoolDown => none
  | .Exhausted _ => none
  | .Null => some (.Null c)
  | .Disabled => some (.Disabled c)
  | .Unverified => some (.Unverified c)
  | .Overlap => some (.Overlap c)
  | .Banned => some (.Banned c)
  | .Invalid => some (.Invalid c)

/-- Modelled from the spec: `disqualify(reason)` (§4.2), the body of
`Config::cookie_cleaner` called at state.rs line 165 but not present in
the src copy of config.rs: "removes the current credential from the active
set, wraps it as a `DisqualifiedCredential`, appends it to the archive,
then re-normalizes `currentIndex` into the (now smaller) active set" (the
cumulative counter lives in state.rs as `SHIFTS` and is incremented by
`cookie_rotate` itself). -/
def Config.cookie_cleaner (cfg : Config) (reason : UselessReason) : Config :=
  match cfg.current_cookie_info with
  | none => cfg
  | some info =>
    match reason.wrap info.cookie with
    | none => cfg
    | some wasted =>
      let arr := cfg.cookie_array.eraseIdx cfg.cookie_index
      { cfg with
        cookie_array := arr
        wasted_cookie := cfg.wasted_cookie ++ [wasted]
        cookie_index := if arr.length = 0 then 0 else cfg.cookie_index % arr.length }

/-! ## Application state (state.rs lines 27-68) -/

/-- Embedding of the fields of `InnerState`/`AppState` (state.rs
lines 27-56) relevant to the pool and rotation engine, plus the rotation
environment:

* `shifts` models the `static SHIFTS: AtomicU64` of `cookie_rotate`
  (state.rs line 139);
* `saves` counts the `config.save()` persistence events (file I/O is not
  modelled beyond the event);
* `spawned` counts the cooldown tasks spawned at state.rs line 185.

The fields `is_pro`, `uuid_org`, `uuid_org_array` and `conv_uuid` play no
role in any claim and are omitted. -/
structure AppState where
  config : Config
  init_length : Nat
  cons_requests : Nat
  rotating : Bool
  cookies : List (List Char × List Char)
  shifts : Nat
  saves : Nat
  spawned : Nat
deriving Repr, DecidableEq

/-- Embedding of `AppState::new` (state.rs lines 60-68): `init_length` is
frozen to the loaded pool's length, the atomics start at zero/false. -/
def AppState.new (config : Config) : AppState where
  config := config
  init_length := config.cookie_array_len
  cons_requests := 0
  rotating := false
  cookies := []
  shifts := 0
  saves := 0
  spawned := 0

/-- Embedding of `AppState::cookie_rotate` (state.rs lines 138-193) as a
state transition:

* the `SHIFTS == init_length` guard (lines 140-143) returns unchanged;
* `current_cookie_info()` returning `None` (lines 147-149) returns
  unchanged;
* `CoolDown` (lines 151-154) advances the index;
* `Exhausted(i)` (lines 155-162) sets `reset_time` on the value returned
  by `current_cookie_info` — which per config.rs line 248 is a `clone`, so
  the entry stored in `cookie_array` is NOT modified — saves, then
  advances;
* every other reason (lines 163-166) runs `cookie_cleaner`;
* afterwards (lines 169-192): one more save, `SHIFTS` is incremented, and
  a cooldown task is spawned whose immediate effects are modelled
  (`rotating := true`, `cons_requests := 0`); its sleep, the later
  `rotating := false` and the bootstrap are not modelled. -/
def AppState.cookie_rotate (st : AppState) (reason : UselessReason) : AppState :=
  if st.shifts = st.init_length then st
  else
    match st.config.current_cookie_info with
    | none => st
    | some current_cookie =>
      let inner : Config × Nat :=
        match reason with
        | .CoolDown => (st.config.rotate_cookie, st.saves)
        | .Exhausted i =>
          -- faithful to the source: the assignment lands on the clone,
          -- which is then dropped; `st.config` is saved and rotated
          -- without the new `reset_time`.
          let _updated : CookieInfo := { current_cookie with reset_time := some i }
          (st.config.rotate_cookie, st.saves + 1)
        | _ => (st.config.cookie_cleaner reason, st.saves)
      { st with
        config := inner.1
        saves := inner.2 + 1
        shifts := st.shifts + 1
        spawned := st.spawned + 1
        rotating := true
        cons_requests := 0 }

/-! ## Cookie jar merging (state.rs lines 96-119)

The three regexes of `update_cookies` are translated explicitly:

* `re1 = ;\s?` — split on a semicolon optionally followed by a single
  whitespace character: `splitSemi` cuts at every `';'` and `dropOneWs`
  removes the one whitespace character belonging to the separator;
* `re2 = ^(path|expires|domain|HttpOnly|Secure|SameSite)[=;]*` with
  case-insensitivity — since `[=;]*` matches the empty string, `is_match`
  holds exactly when the segment starts (case-insensitively) with one of
  the six attribute names;
* `re3 = ^(.*?)=\s*(.*)` — the lazy group captures everything before the
  first `'='`, `\s*` greedily skips whitespace, the rest is the value
  (segments are newline-free by construction, so `.` never meets `'\n'`). -/

/-- Cuts a character list at every `';'` (the separator is dropped). -/
def splitSemi : List Char → List (List Char)
  | [] => [[]]
  | c :: cs =>
    if c = ';' then [] :: splitSemi cs
    else
      match splitSemi cs with
      | [] => [[c]]
      | s :: ss => (c :: s) :: ss

/-- Removes the single whitespace character that `re1`'s `\s?` attaches to
the preceding semicolon, if present. -/
def dropOneWs : List Char → List Char
  | [] => []
  | c :: cs => if isWsChar c then cs else c :: cs

/-- Segments produced by `re1.split` (state.rs line 108): every piece after
a semicolon loses one leading whitespace character. -/
def splitSegments (l : List Char) : List (List Char) :=
  match splitSemi l with
  | [] => []
  | first :: rest => first :: rest.map dropOneWs

/-- Attribute names of `re2` (state.rs line 103), lower-cased. -/
def attrNames : List (List Char) :=
  [("path").data, ("expires").data, ("domain").data,
   ("httponly").data, ("secure").data, ("samesite").data]

/-- Truth of `re2.is_match` on a segment: the segment starts
case-insensitively with one of the six attribute names. -/
def isAttrSegment (l : List Char) : Bool :=
  attrNames.any fun n => startsWith n (l.map asciiLower)

/-- Captures of `re3` on a newline-free segment: `none` when the segment
has no `'='`; otherwise the key is everything before the first `'='` and
the value is the remainder with leading whitespace skipped. -/
def parseKV (l : List Char) : Option (List Char × List Char) :=
  if l.any (· = '=') then
    some (l.takeWhile (· ≠ '='), ((l.dropWhile (· ≠ '=')).drop 1).dropWhile isWsChar)
  else none

/-- Model of `HashMap::insert` (state.rs line 116) on the association-list
jar: an existing key is overwritten in place, a new key is appended. -/
def upsert (jar : List (List Char × List Char)) (k v : List Char) :
    List (List Char × List Char) :=
  if jar.any (fun p => p.1 = k) then
    jar.map fun p => if p.1 = k then (k, v) else p
  else jar ++ [(k, v)]

/-- Embedding of `AppState::update_cookies` (state.rs lines 97-119) as its
action on the cookie jar `self.cookies` (the only field it touches):
newlines are removed and the pieces re-joined (line 98), an empty result
returns early (lines 99-101), then each non-discarded segment that `re3`
parses is inserted. -/
def update_cookies (jar : List (List Char × List Char)) (s : List Char) :
    List (List Char × List Char) :=
  let l := s.filter (· ≠ '\n')
  if l = [] then jar
  else
    ((splitSegments l).filter fun seg => !isAttrSegment seg && seg ≠ []).foldl
      (fun jar seg =>
        match parseKV seg with
        | some (k, v) => upsert jar k v
        | none => jar)
      jar

/-! ## Request headers (state.rs lines 121-135) -/

/-- Modelled from the spec: the error kinds of §7 surfaced across the
component boundary (the declaration of `ClewdrError` lives in error.rs,
which is not in src); `CookieRotating` is the variant the spec calls
`RotatingInProgress`, returned by `header_cookie`. -/
inductive ClewdrError where
  | CookieRotating
deriving Repr, DecidableEq

/-- Model of `Vec::join(sep)` (state.rs line 132). -/
def joinSep (sep : List Char) : List (List Char) → List Char
  | [] => []
  | [s] => s
  | s :: rest => s ++ sep ++ joinSep sep rest

/-- Embedding of `AppState::header_cookie` (state.rs lines 122-135): fails
with `CookieRotating` while the rotating guard is set, otherwise renders
the jar as `name=value` pairs joined by `"; "` and trimmed. -/
def AppState.header_cookie (st : AppState) : Except ClewdrError (List Char) :=
  if st.rotating then .error .CookieRotating
  else .ok (trimChars (joinSep ("; ").data
    (st.cookies.map fun p => p.1 ++ ("=").data ++ p.2)))

/-! ## Request admission (state.rs lines 71-83)

`increase_cons_requests` performs a plain atomic load (line 72), an
in-register increment and threshold check (lines 74-77), an optional
`cookie_rotate(CoolDown)` (line 80), and a plain atomic store (line 82).
For the concurrency claim the function is decomposed into its two shared
memory accesses, and an execution of `n` concurrent calls is an arbitrary
interleaving (schedule) of those accesses. -/

/-- Sequential embedding of `AppState::increase_cons_requests` (state.rs
lines 71-83), for reference: load, increment, threshold check with
rotation, store. -/
def AppState.increase_cons_requests (st : AppState) : AppState :=
  let c := st.cons_requests + 1
  if c > st.config.max_cons_requests then
    { st.cookie_rotate .CoolDown with cons_requests := 0 }
  else { st with cons_requests := c }

/-- Per-call state in the interleaved model: the value read by the load
(if the load already happened) and whether the call has performed its
store phase. -/
structure TaskSt where
  loaded : Option Nat
  acted : Bool
deriving Repr, DecidableEq

/-- Shared state of the interleaved model: the `cons_requests` cell, the
number of `cookie_rotate(CoolDown)` invocations, and the per-call
states. -/
structure ConsState where
  cons : Nat
  rots : Nat
  tasks : List TaskSt
deriving Repr, DecidableEq

/-- One atomic step of call `e.1` of `increase_cons_requests`:

* `e.2 = false` — the load (state.rs line 72): records the current value
  of the shared counter;
* `e.2 = true` — the rest of the body (state.rs lines 74-82): with loaded
  value `v`, if `v + 1 > max_cons_requests` the call triggers a rotation
  and stores `0`, otherwise it stores `v + 1`.

Steps that do not correspond to a pending phase of the call (unknown
index, double load, act before load, double act) change nothing, so a
schedule is an arbitrary list of events. -/
def consStep (m : Nat) (s : ConsState) (e : Nat × Bool) : ConsState :=
  match s.tasks.get? e.1 with
  | none => s
  | some t =>
    if e.2 = false then
      match t.loaded with
      | none => { s with tasks := s.tasks.set e.1 { t with loaded := some s.cons } }
      | some _ => s
    else
      match t.loaded, t.acted with
      | some v, false =>
        if v + 1 > m then
          { cons := 0, rots := s.rots + 1, tasks := s.tasks.set e.1 { t with acted := true } }
        else
          { cons := v + 1, rots := s.rots, tasks := s.tasks.set e.1 { t with acted := true } }
      | _, _ => s

/-- Initial shared state for `n` concurrent calls: counter zero, no call
has loaded or acted, no rotation triggered. -/
def consInit (n : Nat) : ConsState :=
  ⟨0, 0, List.replicate n ⟨none, false⟩⟩

/-- Runs a schedule of interleaved steps of `n` concurrent
`increase_cons_requests` calls with threshold `m`. -/
def consRun (m n : Nat) (sched : List (Nat × Bool)) : ConsState :=
  sched.foldl (consStep m) (consInit n)

/-! ## Lemmas about normalization (claim C8) -/

theorem mem_trimStartMatches_aux (pat : List Char) (c : Char) :
    ∀ n l, l.length ≤ n → c ∈ trimStartMatches pat l → c ∈ l := by
  intro n
  induction n with
  | zero =>
    intro l hl h
    interval_cases hll : l.length
    have : l = [] := List.length_eq_zero.mp hll
    subst this
    rwa [trimStartMatches, dif_neg (by simp [startsWith_iff])] at h
  | succ n ih =>
    intro l hl h
    by_cases hc : pat ≠ [] ∧ startsWith pat l = true
    · rw [trimStartMatches, dif_pos hc] at h
      have hpos : 0 < pat.length := List.length_pos.mpr hc.1
      have hle := startsWith_length_le hc.2
      have := ih (l.drop pat.length) (by simp only [List.length_drop]; omega) h
      exact List.mem_of_mem_drop this
    · rwa [trimStartMatches, dif_neg hc] at h

theorem mem_trimStartMatches {pat l : List Char} {c : Char}
    (h : c ∈ trimStartMatches pat l) : c ∈ l :=
  mem_trimStartMatches_aux pat c l.length l le_rfl h

theorem trimStartMatches_not_starts_aux (pat : List Char) (hp : pat ≠ []) :
    ∀ n l, l.length ≤ n → startsWith pat (trimStartMatches pat l) = false := by
  intro n
  induction n with
  | zero =>
    intro l hl
    have : l = [] := List.length_eq_zero.mp (Nat.le_zero.mp hl)
    subst this
    rw [trimStartMatches, dif_neg (by simp [startsWith_iff])]
    cases pat with
    | nil => exact absurd rfl hp
    | cons p ps => rfl
  | succ n ih =>
    intro l hl
    by_cases hc : pat ≠ [] ∧ startsWith pat l = true
    · rw [trimStartMatches, dif_pos hc]
      have hpos : 0 < pat.length := List.length_pos.mpr hc.1
      exact ih (l.drop pat.length) (by simp only [List.length_drop]; omega)
    · rw [trimStartMatches, dif_neg hc]
      rcases Bool.eq_false_or_eq_true (startsWith pat l) with h | h
      · exact absurd ⟨hp, h⟩ hc
      · exact h

theorem trimStartMatches_not_starts {pat : List Char} (hp : pat ≠ []) (l : List Char) :
    startsWith pat (trimStartMatches pat l) = false :=
  trimStartMatches_not_starts_aux pat hp l.length l le_rfl

theorem trimStartMatches_idem (pat l : List Char) :
    trimStartMatches pat (trimStartMatches pat l) = trimStartMatches pat l := by
  by_cases hp : pat = []
  · subst hp
    rw [trimStartMatches, dif_neg (by simp)]
  · rw [trimStartMatches, dif_neg]
    rw [trimStartMatches_not_starts hp l]
    simp

theorem filter_trimStartMatches_filter (p : Char → Bool) (pat l : List Char) :
    (trimStartMatches pat (l.filter p)).filter p = trimStartMatches pat (l.filter p) := by
  rw [List.filter_eq_self]
  intro a ha
  exact List.of_mem_filter (mem_trimStartMatches ha)

/-! ## Concrete fixtures used by witnesses and counterexamples -/

/-- A credential entry with the given token, no model label, no scheduled
retry. -/
def exInfo (s : String) : CookieInfo :=
  { model := none, cookie := ⟨s.data⟩, reset_time := none }

/-- Configuration with a single active credential, index 0. -/
def cfgOne : Config :=
  { Config.default with cookie_array := [exInfo "c1"], cookie_index := 0 }

/-- Configuration with two active credentials, index 0. -/
def cfgTwo : Config :=
  { Config.default with cookie_array := [exInfo "c1", exInfo "c2"], cookie_index := 0 }

/-- Configuration with three active credentials and a corrupted persisted
index 5 (the C7 scenario). -/
def cfgTriple : Config :=
  { Config.default with
    cookie_array := [exInfo "c1", exInfo "c2", exInfo "c3"], cookie_index := 5 }

/-! ## Claim C8 -/

/-- Claim C8 (confirmed): `normalize` is idempotent — for every raw input
string `x`, `normalize (normalize x) = normalize x`, where `normalize`
filters the input to alphanumerics plus `'='`, `'_'`, `'-'` and then
strips the leading `sessionKey=` envelope. -/
theorem normalize_idempotent (s : String) :
    normalize (normalize s.data) = normalize s.data := by
  unfold normalize
  rw [filter_trimStartMatches_filter allowedChar sessionKeyPat s.data,
      trimStartMatches_idem]

/-! ## Claim C9 -/

/-- Claim C9 (confirmed): `current_cookie_info` is total — it returns the
credential at `cookie_index` when the index is in range, and `none`
otherwise, including when the index is out of range while the active set
is non-empty (no failure, no wrap-around). -/
theorem current_cookie_info_total (cfg : Config) :
    (∀ h : cfg.cookie_index < cfg.cookie_array.length,
        cfg.current_cookie_info = some (cfg.cookie_array.get ⟨cfg.cookie_index, h⟩))
    ∧ (cfg.cookie_array.length ≤ cfg.cookie_index → cfg.current_cookie_info = none) := by
  constructor
  · intro h
    unfold Config.current_cookie_info
    rw [dif_pos h]
  · intro h
    unfold Config.current_cookie_info
    rw [dif_neg (Nat.not_lt.mpr h)]

/-- Witness for C9 at concrete inputs: a singleton pool at index 0 yields
its entry, and the same pool at index 3 (out of range, pool non-empty)
yields `none`. -/
theorem current_cookie_info_total_witness :
    cfgOne.current_cookie_info = some (exInfo "c1")
    ∧ ({ cfgOne with cookie_index := 3 } : Config).current_cookie_info = none := by
  refine ⟨(current_cookie_info_total cfgOne).1 (by decide), ?_⟩
  exact (current_cookie_info_total { cfgOne with cookie_index := 3 }).2 (by decide)

/-! ## Claim C7 -/

/-- Claim C7 (confirmed): with a non-empty credential list, the validation
step run at load time replaces an out-of-range persisted index by
`random_range(0..activeCount)` — modelled by the oracle `rand`, assumed
only to satisfy the `random_range` contract of returning a value in its
range — and leaves an in-range index unchanged. -/
theorem validate_repairs_index (cfg : Config) (rand : Nat → Nat)
    (hne : cfg.cookie_array ≠ [])
    (hrand : rand cfg.cookie_array.length < cfg.cookie_array.length) :
    (cfg.cookie_array.length ≤ cfg.cookie_index →
        (cfg.validate rand).cookie_index = rand cfg.cookie_array.length
        ∧ (cfg.validate rand).cookie_index < cfg.cookie_array.length)
    ∧ (cfg.cookie_index < cfg.cookie_array.length →
        (cfg.validate rand).cookie_index = cfg.cookie_index) := by
  constructor
  · intro hge
    unfold Config.validate
    rw [if_pos ⟨hne, hge⟩]
    exact ⟨rfl, hrand⟩
  · intro hlt
    unfold Config.validate
    rw [if_neg (by rintro ⟨-, hge⟩; omega)]

/-- Witness for C7 at the spec's scenario: a pool of 3 credentials loaded
with index 5 ends at the oracle's choice (here 2), inside `[0, 3)`. -/
theorem validate_repairs_index_witness :
    (cfgTriple.validate (fun n => n - 1)).cookie_index = 2
    ∧ (cfgTriple.validate (fun n => n - 1)).cookie_index < 3 :=
  (validate_repairs_index cfgTriple (fun n => n - 1)
    (by decide) (by decide)).1 (by decide)

/-! ## Claim C3 -/

/-- Claim C3 (confirmed): once the cumulative counter `SHIFTS` equals the
initial pool size, `cookie_rotate` returns with the whole state unchanged
for every reason — no index change, no archive change, no counter change,
no persistence event, no rotation flag, no spawned cooldown: the exhausted
state is absorbing and rotation is a no-op rather than an error. -/
theorem cookie_rotate_exhausted_absorbing (st : AppState) (reason : UselessReason)
    (h : st.shifts = st.init_length) :
    st.cookie_rotate reason = st := by
  unfold AppState.cookie_rotate
  rw [if_pos h]

/-- Witness for C3 at a concrete exhausted state: a singleton pool whose
counter has reached the initial pool size ignores a `Banned` rotation. -/
theorem cookie_rotate_exhausted_absorbing_witness :
    ({ AppState.new cfgOne with shifts := 1 } : AppState).cookie_rotate .Banned
      = { AppState.new cfgOne with shifts := 1 } :=
  cookie_rotate_exhausted_absorbing { AppState.new cfgOne with shifts := 1 } .Banned rfl

/-! ## Claim C2 -/

/-- Counterexample to claim C2 as stated: in a pool state with a current
credential and the cumulative counter (0) below the initial pool size (2),
`cookie_rotate CoolDown` does change the cumulative counter used by the
full-exhaustion guard — `SHIFTS` is incremented on every rotation,
including `CoolDown` (state.rs line 184 runs on every non-guarded path). -/
theorem cooldown_counterexample :
    (AppState.new cfgTwo).config.current_cookie_info.isSome = true
    ∧ (AppState.new cfgTwo).shifts < (AppState.new cfgTwo).init_length
    ∧ ((AppState.new cfgTwo).cookie_rotate .CoolDown).shifts ≠ (AppState.new cfgTwo).shifts := by
  refine ⟨rfl, by decide, by decide⟩

/-- Claim C2 (amended): under the same hypotheses, `rotate(CoolDown)`
advances the selection index circularly and leaves the active credential
list and the disqualified archive unchanged, but increments the cumulative
counter used to detect full exhaustion by one. -/
theorem cookie_rotate_cooldown_frame (st : AppState)
    (hcur : st.config.current_cookie_info.isSome = true)
    (hlt : st.shifts < st.init_length) :
    (st.cookie_rotate .CoolDown).config.cookie_array = st.config.cookie_array
    ∧ (st.cookie_rotate .CoolDown).config.wasted_cookie = st.config.wasted_cookie
    ∧ (st.cookie_rotate .CoolDown).config.cookie_index
        = (st.config.cookie_index + 1) % st.config.cookie_array.length
    ∧ (st.cookie_rotate .CoolDown).shifts = st.shifts + 1 := by
  have hlen : st.config.cookie_index < st.config.cookie_array.length := by
    by_contra hge
    unfold Config.current_cookie_info at hcur
    rw [dif_neg hge] at hcur
    simp at hcur
  unfold AppState.cookie_rotate
  rw [if_neg (Nat.ne_of_lt hlt)]
  unfold Config.current_cookie_info
  rw [dif_pos hlen]
  unfold Config.rotate_cookie
  rw [if_neg (by omega)]
  exact ⟨rfl, rfl, rfl, rfl⟩

/-- Witness for the amended C2 at a concrete state: a two-credential pool
at index 0 moves to index 1, keeps its pool and archive, and its counter
becomes 1. -/
theorem cookie_rotate_cooldown_frame_witness :
    ((AppState.new cfgTwo).cookie_rotate .CoolDown).config.cookie_array
        = (AppState.new cfgTwo).config.cookie_array
    ∧ ((AppState.new cfgTwo).cookie_rotate .CoolDown).config.wasted_cookie
        = (AppState.new cfgTwo).config.wasted_cookie
    ∧ ((AppState.new cfgTwo).cookie_rotate .CoolDown).config.cookie_index
        = ((AppState.new cfgTwo).config.cookie_index + 1)
            % (AppState.new cfgTwo).config.cookie_array.length
    ∧ ((AppState.new cfgTwo).cookie_rotate .CoolDown).shifts
        = (AppState.new cfgTwo).shifts + 1 :=
  cookie_rotate_cooldown_frame (AppState.new cfgTwo) rfl (by decide)

/-! ## Claim C1 -/

/-- Claim C1, code evaluated at the failing input (a singleton pool,
`rotate (Exhausted 42)`): the rotation does run (the counter and the
persistence-event count advance), the credential does remain in the active
set — but the entry stored in the pool still has `reset_time = none`,
because state.rs line 157 assigns the retry timestamp to the clone
returned by `current_cookie_info` (config.rs line 248), which is then
dropped. -/
theorem exhausted_reset_time_lost :
    ((AppState.new cfgOne).cookie_rotate (.Exhausted 42)).config.cookie_array
        = cfgOne.cookie_array
    ∧ ((AppState.new cfgOne).cookie_rotate (.Exhausted 42)).config.wasted_cookie = []
    ∧ (((AppState.new cfgOne).cookie_rotate (.Exhausted 42)).config.cookie_array.map
        fun i => i.reset_time) = [none]
    ∧ ((AppState.new cfgOne).cookie_rotate (.Exhausted 42)).shifts = 1
    ∧ ((AppState.new cfgOne).cookie_rotate (.Exhausted 42)).saves = 2 := by
  refine ⟨rfl, rfl, rfl, rfl, rfl⟩

/-! ## Claim C4 -/

/-- Rendering of the cookie jar as claim C4 words it: the `key=value`
pairs joined by `"; "`, one pair per entry, and the result trimmed.  This
definition follows the claim's words; the theorem below compares it with
the embedded `header_cookie`. -/
def renderPairs : List (List Char × List Char) → List Char
  | [] => []
  | [(k, v)] => k ++ ("=").data ++ v
  | (k, v) :: rest => k ++ ("=").data ++ v ++ ("; ").data ++ renderPairs rest

theorem joinSep_map_renderPairs (jar : List (List Char × List Char)) :
    joinSep ("; ").data (jar.map fun p => p.1 ++ ("=").data ++ p.2) = renderPairs jar := by
  induction jar with
  | nil => rfl
  | cons p rest ih =>
    cases rest with
    | nil => rfl
    | cons q rs =>
      obtain ⟨k, v⟩ := p
      simp only [List.map, joinSep, renderPairs] at ih ⊢
      rw [ih]

/-- Claim C4 (confirmed): `header_cookie` fails with the rotating error if
and only if the rotation-in-progress flag is set; when the flag is clear
it never fails and returns the jar rendered as `key=value` pairs joined by
`"; "` and trimmed. -/
theorem header_cookie_iff_rotating (st : AppState) :
    (st.header_cookie = .error .CookieRotating ↔ st.rotating = true)
    ∧ (st.rotating = false → st.header_cookie = .ok (trimChars (renderPairs st.cookies))) := by
  constructor
  · unfold AppState.header_cookie
    cases h : st.rotating with
    | false => simp
    | true => simp
  · intro h
    unfold AppState.header_cookie
    rw [if_neg (by simp [h]), joinSep_map_renderPairs]

/-- Witness for C4 at a concrete state: with the flag clear and jar
entries `foo=1`, `bar=2`, the header is `"foo=1; bar=2"`; the same state
with the flag set fails with the rotating error. -/
theorem header_cookie_iff_rotating_witness :
    ({ AppState.new cfgOne with
        cookies := [(("foo").data, ("1").data), (("bar").data, ("2").data)] } :
      AppState).header_cookie = .ok (("foo=1; bar=2").data)
    ∧ ({ AppState.new cfgOne with
        cookies := [(("foo").data, ("1").data), (("bar").data, ("2").data)],
        rotating := true } :
      AppState).header_cookie = .error .CookieRotating := by
  constructor
  · rw [(header_cookie_iff_rotating _).2 rfl]
    rfl
  · exact (header_cookie_iff_rotating _).1.mpr rfl

/-! ## Claim C5

The spec-side merge below follows the words of the (amended) claim with
its own segmentation, discard test, `key=value` parser and upsert, to be
compared with the source-side `update_cookies`. -/

/-- Conses a character onto the segment currently being built (the head of
the segment list). -/
def consHead (c : Char) : List (List Char) → List (List Char)
  | [] => [[c]]
  | s :: ss => (c :: s) :: ss

theorem dropOneWs_length_le (l : List Char) : (dropOneWs l).length ≤ l.length := by
  cases l with
  | nil => simp [dropOneWs]
  | cons c cs => by_cases h : isWsChar c <;> simp [dropOneWs, h]

/-- Segmentation as the claim describes it: segments are the runs between
separators, a separator being a `';'` together with at most one
immediately following whitespace character. -/
def segsSpec : List Char → List (List Char)
  | [] => [[]]
  | c :: rest =>
    if c = ';' then [] :: segsSpec (dropOneWs rest)
    else consHead c (segsSpec rest)
termination_by l => l.length
decreasing_by
  all_goals simp only [List.length_cons]
  · exact Nat.lt_succ_of_le (dropOneWs_length_le _)
  · exact Nat.lt_succ_self _

/-- Case-insensitive (ASCII) test that `seg` begins with `name`, as the
amended claim words the discard condition. -/
def nameMatchesCI : List Char → List Char → Bool
  | [], _ => true
  | _ :: _, [] => false
  | a :: as, c :: cs => (asciiLower a = asciiLower c) && nameMatchesCI as cs

/-- Discard condition of the amended claim: the segment starts
case-insensitively with one of the six cookie attribute names. -/
def discardSpec (seg : List Char) : Bool :=
  attrNames.any fun n => nameMatchesCI n seg

/-- Parser for a `key=value` segment as the claim words it: the key is
what stands before the first `'='`, the value is what follows it with
leading whitespace skipped; a segment without `'='` does not parse. -/
def splitKVSpec : List Char → Option (List Char × List Char)
  | [] => none
  | c :: rest =>
    if c = '=' then some ([], rest.dropWhile isWsChar)
    else
      match splitKVSpec rest with
      | some (k, v) => some (c :: k, v)
      | none => none

/-- Upsert as the claim words it: the same key overwrites in place, never
duplicating; a new key is appended. -/
def upsertSpec : List (List Char × List Char) → List Char → List Char →
    List (List Char × List Char)
  | [], k, v => [(k, v)]
  | p :: ps, k, v => if p.1 = k then (k, v) :: ps else p :: upsertSpec ps k v

/-- Merge of a segment list as the amended claim describes it: discarded
and empty segments contribute nothing, parsed `key=value` segments are
upserted, unparsable segments are silently skipped. -/
def mergeSegs (jar : List (List Char × List Char)) :
    List (List Char) → List (List Char × List Char)
  | [] => jar
  | seg :: rest =>
    if seg = [] ∨ discardSpec seg = true then mergeSegs jar rest
    else
      match splitKVSpec seg with
      | some (k, v) => mergeSegs (upsertSpec jar k v) rest
      | none => mergeSegs jar rest

/-- The amended claim's `mergeSetCookie`: newlines removed, the input cut
into segments, and the segments merged into the jar. -/
def mergeSetCookieSpec (jar : List (List Char × List Char)) (s : List Char) :
    List (List Char × List Char) :=
  mergeSegs jar (segsSpec (s.filter (· ≠ '\n')))

theorem splitSemi_ne_nil (l : List Char) : splitSemi l ≠ [] := by
  cases l with
  | nil => simp [splitSemi]
  | cons c cs =>
    unfold splitSemi
    by_cases h : c = ';'
    · simp [h]
    · simp only [if_neg h]
      cases splitSemi cs <;> simp

theorem splitSemi_shape (l : List Char) : ∃ s ss, splitSemi l = s :: ss := by
  cases h : splitSemi l with
  | nil => exact absurd h (splitSemi_ne_nil l)
  | cons s ss => exact ⟨s, ss, rfl⟩

theorem splitSegments_eq_segsSpec_aux :
    ∀ n, ∀ l : List Char, l.length ≤ n →
      splitSegments l = segsSpec l
      ∧ (splitSemi l).map dropOneWs = segsSpec (dropOneWs l) := by
  intro n
  induction n with
  | zero =>
    intro l hl
    have : l = [] := List.length_eq_zero.mp (Nat.le_zero.mp hl)
    subst this
    constructor
    · simp [splitSegments, splitSemi, segsSpec]
    · simp [splitSemi, segsSpec, dropOneWs]
  | succ n ih =>
    intro l hl
    cases l with
    | nil =>
      constructor
      · simp [splitSegments, splitSemi, segsSpec]
      · simp [splitSemi, segsSpec, dropOneWs]
    | cons c rest =>
      have hr : rest.length ≤ n := by simpa using hl
      obtain ⟨s, ss, hss⟩ := splitSemi_shape rest
      have hmain : segsSpec rest = s :: ss.map dropOneWs := by
        rw [← (ih rest hr).1]
        simp [splitSegments, hss]
      constructor
      · by_cases hc : c = ';'
        · subst hc
          simp only [segsSpec, if_pos rfl, splitSegments, splitSemi, hss]
          rw [← (ih rest hr).2]
          simp [splitSemi, hss]
        · simp only [segsSpec, splitSegments, splitSemi, if_neg hc, hss, hmain, consHead]
      · by_cases hc : c = ';'
        · subst hc
          have hd : dropOneWs (';' :: rest) = ';' :: rest := by
            simp [dropOneWs, show isWsChar ';' = false from rfl]
          rw [hd]
          simp only [segsSpec, if_pos rfl, splitSemi]
          rw [← (ih rest hr).2]
          simp [splitSemi, dropOneWs]
        · by_cases hw : isWsChar c
          · have hd : dropOneWs (c :: rest) = rest := by simp [dropOneWs, hw]
            rw [hd, hmain]
            simp only [splitSemi, if_neg hc, hss]
            simp [dropOneWs, hw]
          · have hd : dropOneWs (c :: rest) = c :: rest := by simp [dropOneWs, hw]
            rw [hd]
            simp only [segsSpec, if_neg hc, splitSemi, hss, hmain, consHead]
            simp [dropOneWs, hw]

theorem splitSegments_eq_segsSpec (l : List Char) : splitSegments l = segsSpec l :=
  (splitSegments_eq_segsSpec_aux l.length l le_rfl).1

theorem nameMatchesCI_eq_startsWith (nm : List Char) (hnm : ∀ a ∈ nm, asciiLower a = a) :
    ∀ seg, nameMatchesCI nm seg = startsWith nm (seg.map asciiLower) := by
  induction nm with
  | nil => intro seg; rfl
  | cons a as ih =>
    intro seg
    cases seg with
    | nil => rfl
    | cons c cs =>
      simp only [nameMatchesCI, List.map_cons, startsWith]
      rw [hnm a (List.mem_cons_self a as),
          ih (fun x hx => hnm x (List.mem_cons_of_mem a hx)) cs]

theorem anyCongr {l : List (List Char)} {f g : List Char → Bool}
    (h : ∀ x ∈ l, f x = g x) : l.any f = l.any g := by
  induction l with
  | nil => rfl
  | cons x xs ih =>
    simp only [List.any_cons, h x (List.mem_cons_self x xs)]
    rw [ih fun y hy => h y (List.mem_cons_of_mem x hy)]

theorem discardSpec_eq_isAttrSegment (seg : List Char) :
    discardSpec seg = isAttrSegment seg := by
  have hlow : ∀ nm ∈ attrNames, ∀ a ∈ nm, asciiLower a = a := by decide
  unfold discardSpec isAttrSegment
  exact anyCongr fun nm hnm => nameMatchesCI_eq_startsWith nm (hlow nm hnm) seg

theorem splitKVSpec_eq_parseKV : ∀ seg, splitKVSpec seg = parseKV seg := by
  intro seg
  induction seg with
  | nil => rfl
  | cons c cs ih =>
    by_cases hc : c = '='
    · subst hc
      simp [splitKVSpec, parseKV, List.takeWhile_cons, List.dropWhile_cons]
    · by_cases hany : cs.any (· = '=')
      · simp only [splitKVSpec, if_neg hc, ih, parseKV, List.any_cons, hany,
          Bool.or_true, if_pos, List.takeWhile_cons, List.dropWhile_cons]
        simp [hc]
      · simp only [splitKVSpec, if_neg hc, ih, parseKV, List.any_cons,
          Bool.or_eq_true, decide_eq_true_eq]
        simp [hc, hany]

theorem map_replace_eq_self {jar : List (List Char × List Char)} {k v : List Char}
    (h : ∀ p ∈ jar, p.1 ≠ k) :
    (jar.map fun p => if p.1 = k then (k, v) else p) = jar := by
  induction jar with
  | nil => rfl
  | cons p ps ih =>
    simp only [List.map_cons, if_neg (h p (List.mem_cons_self p ps))]
    rw [ih fun q hq => h q (List.mem_cons_of_mem p hq)]

theorem upsertSpec_eq_upsert (k v : List Char) :
    ∀ jar : List (List Char × List Char), (jar.map Prod.fst).Nodup →
      upsertSpec jar k v = upsert jar k v := by
  intro jar
  induction jar with
  | nil => intro _; rfl
  | cons p ps ih =>
    intro hnd
    simp only [List.map_cons, List.nodup_cons] at hnd
    by_cases hk : p.1 = k
    · have hnok : ∀ q ∈ ps, q.1 ≠ k := by
        intro q hq
        rw [← hk]
        intro hqe
        exact hnd.1 (hqe ▸ List.mem_map_of_mem Prod.fst hq)
      have hany : ((p :: ps).any fun q => q.1 = k) = true := by simp [hk]
      simp only [upsertSpec, if_pos hk]
      unfold upsert
      rw [hany]
      simp only [List.map_cons, if_pos hk, map_replace_eq_self hnok]
      simp
    · by_cases hany : (ps.any fun q => q.1 = k) = true
      · have hany2 : ((p :: ps).any fun q => q.1 = k) = true := by simp [hany]
        simp only [upsertSpec, if_neg hk]
        rw [ih hnd.2]
        unfold upsert
        rw [hany, hany2]
        simp only [List.map_cons, if_neg hk]
        simp
      · have hany3 : (ps.any fun q => q.1 = k) = false := by
          rcases Bool.eq_false_or_eq_true (ps.any fun q => q.1 = k) with h | h
          · exact absurd h hany
          · exact h
        have hany2 : ((p :: ps).any fun q => q.1 = k) = false := by
          simp [List.any_cons, hk, hany3]
        simp only [upsertSpec, if_neg hk]
        rw [ih hnd.2]
        unfold upsert
        rw [hany2, hany3]
        simp

theorem upsert_keys_nodup {k v : List Char} {jar : List (List Char × List Char)}
    (h : (jar.map Prod.fst).Nodup) :
    ((upsert jar k v).map Prod.fst).Nodup := by
  unfold upsert
  by_cases hany : jar.any fun p => p.1 = k
  · rw [if_pos hany]
    have : ((jar.map fun p => if p.1 = k then (k, v) else p).map Prod.fst)
        = jar.map Prod.fst := by
      rw [List.map_map]
      apply List.map_congr_left
      intro p _
      by_cases hp : p.1 = k
      · simp [hp]
      · simp [hp]
    rwa [this]
  · rw [if_neg hany, List.map_append]
    rw [List.nodup_append]
    refine ⟨h, List.nodup_singleton k, ?_⟩
    intro a ha hak
    simp only [List.map_cons, List.map_nil, List.mem_singleton] at hak
    subst hak
    obtain ⟨p, hp, hpa⟩ := List.mem_map.mp ha
    rw [List.any_eq_true] at hany
    exact hany ⟨p, hp, by simp [hpa]⟩

theorem foldl_filter_eq_mergeSegs :
    ∀ (segs : List (List Char)) (jar : List (List Char × List Char)),
      (jar.map Prod.fst).Nodup →
      ((segs.filter fun seg => !isAttrSegment seg && seg ≠ []).foldl
        (fun jar seg =>
          match parseKV seg with
          | some (k, v) => upsert jar k v
          | none => jar)
        jar)
        = mergeSegs jar segs := by
  intro segs
  induction segs with
  | nil => intro jar _; rfl
  | cons seg rest ih =>
    intro jar hnd
    by_cases hskip : seg = [] ∨ discardSpec seg = true
    · have hfilter : (!isAttrSegment seg && decide (seg ≠ [])) = false := by
        rcases hskip with hemp | hattr
        · simp [hemp]
        · rw [← discardSpec_eq_isAttrSegment, hattr]
          rfl
      have h1 : mergeSegs jar (seg :: rest) = mergeSegs jar rest := by
        simp only [mergeSegs, if_pos hskip]
      have h2 : List.filter (fun s => !isAttrSegment s && decide (s ≠ [])) (seg :: rest)
          = List.filter (fun s => !isAttrSegment s && decide (s ≠ [])) rest :=
        List.filter_cons_of_neg (by
          show ¬ ((!isAttrSegment seg && decide (seg ≠ [])) = true)
          rw [hfilter]
          simp)
      rw [h1, h2]
      exact ih jar hnd
    · have hcond : ¬ (seg = [] ∨ discardSpec seg = true) := hskip
      push_neg at hskip
      have hfilter : (!isAttrSegment seg && decide (seg ≠ [])) = true := by
        rw [← discardSpec_eq_isAttrSegment]
        simp [hskip.1, hskip.2]
      have h2 : List.filter (fun s => !isAttrSegment s && decide (s ≠ [])) (seg :: rest)
          = seg :: List.filter (fun s => !isAttrSegment s && decide (s ≠ [])) rest :=
        List.filter_cons_of_pos hfilter
      rw [h2, List.foldl_cons]
      have h3 : mergeSegs jar (seg :: rest)
          = match splitKVSpec seg with
            | some (k, v) => mergeSegs (upsertSpec jar k v) rest
            | none => mergeSegs jar rest := by
        simp only [mergeSegs, if_neg hcond]
      rw [h3, splitKVSpec_eq_parseKV]
      cases hkv : parseKV seg with
      | none =>
        simp only [hkv]
        exact ih jar hnd
      | some p =>
        obtain ⟨k, v⟩ := p
        simp only [hkv]
        rw [upsertSpec_eq_upsert k v jar hnd]
        exact ih (upsert jar k v) (upsert_keys_nodup hnd)

/-- Counterexample to claim C5 as stated: the segment `secured=1` has
attribute name `secured` (the part before `'='`), which matches none of
the six attribute names case-insensitively, and it parses as `key=value`
— so per the claim it must be upserted — yet `update_cookies` discards
it, because the regex `^(path|expires|domain|HttpOnly|Secure|SameSite)[=;]*`
only requires the segment to START with an attribute name (`[=;]*` can
match the empty string), and `secured` starts with `secure`. -/
theorem update_cookies_name_counterexample :
    update_cookies [] (("secured=1").data) = []
    ∧ parseKV (("secured=1").data) = some ((("secured").data), ("1").data)
    ∧ (("secured").data).map asciiLower ∉ attrNames := by
  refine ⟨by decide, by decide, by decide⟩

/-- Claim C5 (amended): `mergeSetCookie` splits its input on `;`-separated
segments (a separator eating at most one following whitespace character),
discards exactly the segments that START case-insensitively with one of
path, expires, domain, HttpOnly, Secure, SameSite (a prefix test, not an
attribute-name match), upserts every remaining `key=value` segment into
the jar (same key overwrites, never duplicates), and silently skips
segments that do not parse as `key=value`; in particular
`"foo=1; Path=/; bar=2; HttpOnly"` yields exactly foo=1 and bar=2.  Stated
as: on every jar with distinct keys, the embedded `update_cookies` agrees
with `mergeSetCookieSpec`, the claim-side merge built from those words. -/
theorem update_cookies_matches_spec :
    (∀ (jar : List (List Char × List Char)) (s : List Char),
        (jar.map Prod.fst).Nodup → update_cookies jar s = mergeSetCookieSpec jar s)
    ∧ update_cookies [] (("foo=1; Path=/; bar=2; HttpOnly").data)
        = [((("foo").data), ("1").data), ((("bar").data), ("2").data)] := by
  constructor
  · intro jar s hnd
    unfold update_cookies mergeSetCookieSpec
    by_cases hempty : s.filter (· ≠ '\n') = []
    · rw [hempty]
      simp only [if_pos rfl]
      have h0 : segsSpec [] = [[]] := by simp [segsSpec]
      rw [h0]
      simp [mergeSegs]
    · rw [if_neg hempty, splitSegments_eq_segsSpec]
      exact foldl_filter_eq_mergeSegs _ jar hnd
  · decide

/-- Witness for the amended C5 at the claim's concrete example, with the
empty (trivially distinct-keyed) jar. -/
theorem update_cookies_matches_spec_witness :
    update_cookies [] (("foo=1; Path=/; bar=2; HttpOnly").data)
      = mergeSetCookieSpec [] (("foo=1; Path=/; bar=2; HttpOnly").data) :=
  update_cookies_matches_spec.1 [] (("foo=1; Path=/; bar=2; HttpOnly").data) (by simp)

/-! ## Claim C6 -/

theorem matchLit_append (lit r : List Char) : matchLit lit (lit ++ r) = some r := by
  induction lit with
  | nil => rfl
  | cons p ps ih => simp [matchLit, ih]

theorem matchLit_decomp : ∀ lit l r : List Char, matchLit lit l = some r → l = lit ++ r := by
  intro lit
  induction lit with
  | nil =>
    intro l r h
    simp only [matchLit, Option.some.injEq] at h
    simp [h]
  | cons p ps ih =>
    intro l r h
    cases l with
    | nil => exact absurd h (by simp [matchLit])
    | cons c cs =>
      by_cases hp : p = c
      · subst hp
        simp only [matchLit, if_pos rfl] at h
        rw [List.cons_append, ih cs r h]
      · exact absurd h (by simp [matchLit, hp])

theorem takeCount_append (p : Char → Bool) (t r : List Char)
    (hall : ∀ c ∈ t, p c = true) :
    takeCount p t.length (t ++ r) = some r := by
  induction t with
  | nil => rfl
  | cons c cs ih =>
    simp only [List.length_cons, List.cons_append, takeCount,
      if_pos (hall c (List.mem_cons_self c cs))]
    exact ih fun x hx => hall x (List.mem_cons_of_mem c hx)

theorem takeCount_decomp (p : Char → Bool) :
    ∀ (n : Nat) (l r : List Char), takeCount p n l = some r →
      ∃ t, l = t ++ r ∧ t.length = n ∧ ∀ c ∈ t, p c = true := by
  intro n
  induction n with
  | zero =>
    intro l r h
    simp only [takeCount, Option.some.injEq] at h
    exact ⟨[], by simp [h], rfl, by simp⟩
  | succ n ih =>
    intro l r h
    cases l with
    | nil => exact absurd h (by simp [takeCount])
    | cons c cs =>
      by_cases hp : p c = true
      · simp only [takeCount, if_pos hp] at h
        obtain ⟨t, hteq, htlen, htall⟩ := ih cs r h
        refine ⟨c :: t, by simp [hteq], by simp [htlen], ?_⟩
        intro x hx
        rcases List.mem_cons.mp hx with hx | hx
        · rwa [hx]
        · exact htall x hx
      · rw [Bool.not_eq_true] at hp
        exact absurd h (by simp [takeCount, hp])

theorem matchPatAt_wire (core tail r : List Char)
    (hc : core.length = 86) (hcall : ∀ x ∈ core, isUrlSafe x = true)
    (ht : tail.length = 6) (htall : ∀ x ∈ tail, isUrlSafe x = true) :
    matchPatAt (("sk-ant-sid01-").data
      ++ (core ++ (("-").data ++ (tail ++ (("AA").data ++ r))))) = true := by
  unfold matchPatAt
  rw [matchLit_append, Option.some_bind, ← hc, takeCount_append isUrlSafe core _ hcall,
    Option.some_bind, matchLit_append, Option.some_bind, ← ht,
    takeCount_append isUrlSafe tail _ htall, Option.some_bind, matchLit_append]
  rfl

theorem matchPatAt_decomp (l : List Char) (h : matchPatAt l = true) :
    ∃ t r, l = t ++ r ∧ t.length = 108 ∧ ∀ c ∈ t, isUrlSafe c = true := by
  unfold matchPatAt at h
  cases h1 : matchLit ("sk-ant-sid01-").data l with
  | none => rw [h1] at h; simp at h
  | some r1 =>
  rw [h1] at h
  simp only [Option.some_bind] at h
  cases h2 : takeCount isUrlSafe 86 r1 with
  | none => rw [h2] at h; simp at h
  | some r2 =>
  rw [h2] at h
  simp only [Option.some_bind] at h
  cases h3 : matchLit ("-").data r2 with
  | none => rw [h3] at h; simp at h
  | some r3 =>
  rw [h3] at h
  simp only [Option.some_bind] at h
  cases h4 : takeCount isUrlSafe 6 r3 with
  | none => rw [h4] at h; simp at h
  | some r4 =>
  rw [h4] at h
  simp only [Option.some_bind] at h
  cases h5 : matchLit ("AA").data r4 with
  | none => rw [h5] at h; simp at h
  | some r5 =>
  have e1 := matchLit_decomp _ _ _ h1
  obtain ⟨t1, e2, ht1len, ht1all⟩ := takeCount_decomp isUrlSafe 86 r1 r2 h2
  have e3 := matchLit_decomp _ _ _ h3
  obtain ⟨t2, e4, ht2len, ht2all⟩ := takeCount_decomp isUrlSafe 6 r3 r4 h4
  have e5 := matchLit_decomp _ _ _ h5
  refine ⟨("sk-ant-sid01-").data ++ t1 ++ ("-").data ++ t2 ++ ("AA").data, r5, ?_, ?_, ?_⟩
  · rw [e1, e2, e3, e4, e5]
    simp [List.append_assoc]
  · simp only [List.length_append, ht1len, ht2len]
    rfl
  · intro c hc
    have hp1 : ∀ x ∈ ("sk-ant-sid01-").data, isUrlSafe x = true := by decide
    have hp2 : ∀ x ∈ ("-").data, isUrlSafe x = true := by decide
    have hp3 : ∀ x ∈ ("AA").data, isUrlSafe x = true := by decide
    simp only [List.append_assoc, List.mem_append] at hc
    rcases hc with hc | hc | hc | hc | hc
    · exact hp1 c hc
    · exact ht1all c hc
    · exact hp2 c hc
    · exact ht2all c hc
    · exact hp3 c hc

theorem containsPat_decomp : ∀ l : List Char, containsPat l = true →
    ∃ i, matchPatAt (l.drop i) = true := by
  intro l
  induction l with
  | nil => intro h; exact ⟨0, h⟩
  | cons c cs ih =>
    intro h
    simp only [containsPat, Bool.or_eq_true] at h
    rcases h with h | h
    · exact ⟨0, h⟩
    · obtain ⟨i, hi⟩ := ih h
      exact ⟨i + 1, by simpa using hi⟩

theorem containsPat_of_matchPatAt (l : List Char) (h : matchPatAt l = true) :
    containsPat l = true := by
  cases l with
  | nil => exact h
  | cons c cs => simp [containsPat, h]

theorem matchPatAt_length {l : List Char} (h : matchPatAt l = true) : 108 ≤ l.length := by
  obtain ⟨t, r, heq, hlen, -⟩ := matchPatAt_decomp l h
  rw [heq]
  simp [hlen]

theorem validate_of_short {l : List Char} (h : l.length < 108) :
    Cookie.validate ⟨l⟩ = false := by
  unfold Cookie.validate
  rcases Bool.eq_false_or_eq_true (containsPat l) with hT | hF
  · exfalso
    obtain ⟨i, hi⟩ := containsPat_decomp l hT
    have h1 := matchPatAt_length hi
    rw [List.length_drop] at h1
    omega
  · exact hF

/-- The exact wire-format token: prefix, 86 URL-safe characters, a hyphen,
6 URL-safe characters, suffix `AA`. -/
def wireToken (core tail : List Char) : List Char :=
  ("sk-ant-sid01-").data ++ (core ++ (("-").data ++ (tail ++ ("AA").data)))

theorem wireToken_length {core tail : List Char}
    (hc : core.length = 86) (ht : tail.length = 6) :
    (wireToken core tail).length = 108 := by
  have e1 : (("sk-ant-sid01-").data).length = 13 := rfl
  have e2 : (("-").data).length = 1 := rfl
  have e3 : (("AA").data).length = 2 := rfl
  simp only [wireToken, List.length_append, e1, e2, e3, hc, ht]

/-- Counterexample to claim C6 as stated: a token obtained from a
well-formed token by APPENDING a character — a change of length — still
validates, because `Regex::is_match` is unanchored: it tests whether the
pattern occurs anywhere in the string, not whether the whole string
matches it. -/
theorem validate_containment_counterexample :
    Cookie.validate ⟨wireToken (List.replicate 86 'a') (List.replicate 6 'a')⟩ = true
    ∧ (wireToken (List.replicate 86 'a') (List.replicate 6 'a') ++ ['Z']).length
        ≠ (wireToken (List.replicate 86 'a') (List.replicate 6 'a')).length
    ∧ Cookie.validate ⟨wireToken (List.replicate 86 'a') (List.replicate 6 'a') ++ ['Z']⟩
        = true := by
  refine ⟨by decide, by decide, by decide⟩

/-- Claim C6 (amended): `isWellFormed` returns true for every token that
exactly matches the wire pattern, and false for every token obtained from
such a token by mutating a single character to one outside the allowed
alphabet, and false for every token shorter than the 108-character
pattern; but because the match is a containment test rather than an exact
match, a length change that keeps a full occurrence of the pattern (such
as appending characters) still returns true. -/
theorem validate_wire_pattern (core tail : List Char) (j : Nat) (c : Char)
    (hc : core.length = 86) (hcall : ∀ x ∈ core, isUrlSafe x = true)
    (ht : tail.length = 6) (htall : ∀ x ∈ tail, isUrlSafe x = true)
    (hj : j < 108) (hbad : isUrlSafe c = false) :
    Cookie.validate ⟨wireToken core tail⟩ = true
    ∧ Cookie.validate ⟨(wireToken core tail).set j c⟩ = false
    ∧ (∀ s : List Char, s.length < 108 → Cookie.validate ⟨s⟩ = false) := by
  refine ⟨?_, ?_, fun s hs => validate_of_short hs⟩
  · unfold Cookie.validate
    apply containsPat_of_matchPatAt
    have h := matchPatAt_wire core tail [] hc hcall ht htall
    rwa [List.append_nil] at h
  · have hwlen : (wireToken core tail).length = 108 := wireToken_length hc ht
    have hslen : ((wireToken core tail).set j c).length = 108 := by
      rw [List.length_set, hwlen]
    unfold Cookie.validate
    rcases Bool.eq_false_or_eq_true (containsPat ((wireToken core tail).set j c))
      with hT | hF
    case inr => exact hF
    · exfalso
      obtain ⟨i, hi⟩ := containsPat_decomp _ hT
      have hlen108 := matchPatAt_length hi
      rw [List.length_drop, hslen] at hlen108
      have hi0 : i = 0 := by omega
      rw [hi0, List.drop_zero] at hi
      obtain ⟨t, r, heq, htlen, hall⟩ := matchPatAt_decomp _ hi
      have hr : r = [] := by
        have := congrArg List.length heq
        simp only [List.length_append, hslen, htlen] at this
        exact List.length_eq_zero.mp (by omega)
      subst hr
      rw [List.append_nil] at heq
      have hcmem : c ∈ (wireToken core tail).set j c := by
        have hj0 : j < (wireToken core tail).length := by rw [hwlen]; exact hj
        have hj' : j < ((wireToken core tail).set j c).length := by rw [hslen]; exact hj
        have hself : ((wireToken core tail).set j c).get ⟨j, hj'⟩ = c := by
          rw [List.get_eq_getElem]
          exact List.getElem_set_self hj'
        have hmem := List.get_mem ((wireToken core tail).set j c) j hj'
        rwa [hself] at hmem
      have := hall c (heq ▸ hcmem)
      rw [hbad] at this
      exact Bool.false_ne_true this

/-- Witness for the amended C6 at a concrete token: all-`a` filler, the
character at index 20 mutated to `'!'`. -/
theorem validate_wire_pattern_witness :
    Cookie.validate ⟨wireToken (List.replicate 86 'a') (List.replicate 6 'b')⟩ = true
    ∧ Cookie.validate
        ⟨(wireToken (List.replicate 86 'a') (List.replicate 6 'b')).set 20 '!'⟩ = false
    ∧ (∀ s : List Char, s.length < 108 → Cookie.validate ⟨s⟩ = false) :=
  validate_wire_pattern (List.replicate 86 'a') (List.replicate 6 'b') 20 '!'
    (by decide) (by decide) (by decide) (by decide) (by decide) (by decide)

/-! ## Claim C10

The key observation: in the interleaved model of `n` concurrent
`increase_cons_requests` calls, every value stored into the shared counter
is bounded by the number of calls that have completed their store phase,
so a call can only observe a value `≥ m` after `m` other calls have fully
completed — with exactly `m + 1` calls, a rotating call is always the last
one to act, and a second rotation is impossible even though the
load/compare/store sequence is not atomic. -/

/-- Number of calls that have completed their act (store) phase. -/
def actsOf (s : ConsState) : Nat := s.tasks.countP (·.acted)

theorem countP_set_keep {α : Type} (p : α → Bool) :
    ∀ (l : List α) (i : Nat) (t u : α), l.get? i = some t → p t = p u →
      (l.set i u).countP p = l.countP p := by
  intro l
  induction l with
  | nil => intro i t u h _; simp at h
  | cons a as ih =>
    intro i t u h hp
    cases i with
    | zero =>
      simp only [List.get?, Option.some.injEq] at h
      subst h
      simp only [List.set, List.countP_cons, hp]
    | succ n =>
      simp only [List.get?] at h
      simp only [List.set, List.countP_cons]
      rw [ih n t u h hp]

theorem countP_set_flip {α : Type} (p : α → Bool) :
    ∀ (l : List α) (i : Nat) (t u : α), l.get? i = some t →
      p t = false → p u = true →
      (l.set i u).countP p = l.countP p + 1 := by
  intro l
  induction l with
  | nil => intro i t u h _ _; simp at h
  | cons a as ih =>
    intro i t u h hpt hpu
    cases i with
    | zero =>
      simp only [List.get?, Option.some.injEq] at h
      subst h
      simp only [List.set, List.countP_cons, hpt, hpu]
      simp
    | succ n =>
      simp only [List.get?] at h
      simp only [List.set, List.countP_cons]
      rw [ih n t u h hpt hpu]
      omega

/-- Invariant of the interleaved model for `n ≤ m + 1` calls: the shared
counter never exceeds the number of completed calls, every loaded value is
bounded by the number of completed calls, at most one rotation has fired,
and once one has fired every call has completed. -/
def ConsInv (m : Nat) (s : ConsState) : Prop :=
  s.tasks.length ≤ m + 1
  ∧ s.cons ≤ actsOf s
  ∧ (∀ t ∈ s.tasks, t.acted = false → ∀ v, t.loaded = some v → v ≤ actsOf s)
  ∧ s.rots ≤ 1
  ∧ (s.rots = 1 → actsOf s = s.tasks.length)

theorem actsOf_lt_of_not_acted {s : ConsState} {t : TaskSt}
    (hmem : t ∈ s.tasks) (hact : t.acted = false) :
    actsOf s < s.tasks.length := by
  rcases Nat.lt_or_ge (actsOf s) s.tasks.length with h | h
  · exact h
  · exfalso
    have heq : s.tasks.countP (·.acted) = s.tasks.length :=
      Nat.le_antisymm (List.countP_le_length _) h
    have := List.countP_eq_length.mp heq t hmem
    rw [hact] at this
    exact Bool.false_ne_true this

theorem consStep_inv (m : Nat) (s : ConsState) (e : Nat × Bool)
    (h : ConsInv m s) : ConsInv m (consStep m s e) := by
  obtain ⟨hlen, hcons, hload, hrots, hfull⟩ := h
  cases hget : s.tasks.get? e.1 with
  | none =>
    have hred : consStep m s e = s := by
      rw [List.get?_eq_getElem?] at hget
      simp [consStep, hget]
    rw [hred]
    exact ⟨hlen, hcons, hload, hrots, hfull⟩
  | some t =>
    obtain ⟨tl, ta⟩ := t
    have htmem : (⟨tl, ta⟩ : TaskSt) ∈ s.tasks := List.get?_mem hget
    have hget2 := hget
    rw [List.get?_eq_getElem?] at hget2
    by_cases hph : e.2 = false
    · cases tl with
      | some v =>
        have hred : consStep m s e = s := by simp [consStep, hget2, hph]
        rw [hred]
        exact ⟨hlen, hcons, hload, hrots, hfull⟩
      | none =>
        have hred : consStep m s e
            = ⟨s.cons, s.rots, s.tasks.set e.1 ⟨some s.cons, ta⟩⟩ := by
          simp [consStep, hget2, hph]
        rw [hred]
        have hacts : actsOf ⟨s.cons, s.rots, s.tasks.set e.1 ⟨some s.cons, ta⟩⟩
            = actsOf s :=
          countP_set_keep _ s.tasks e.1 ⟨none, ta⟩ ⟨some s.cons, ta⟩ hget rfl
        refine ⟨by simpa using hlen, by simpa [hacts] using hcons, ?_, hrots, ?_⟩
        · intro x hx hxact v hxv
          rw [hacts]
          rcases List.mem_or_eq_of_mem_set hx with hx | hx
          · exact hload x hx hxact v hxv
          · subst hx
            simp only at hxv
            injection hxv with hv
            rw [← hv]
            exact hcons
        · intro hr
          have := hfull hr
          simp only [hacts]
          simpa using this
    · cases ta with
      | true =>
        have hred : consStep m s e = s := by
          cases tl <;> simp [consStep, hget2, hph]
        rw [hred]
        exact ⟨hlen, hcons, hload, hrots, hfull⟩
      | false =>
        cases tl with
        | none =>
          have hred : consStep m s e = s := by simp [consStep, hget2, hph]
          rw [hred]
          exact ⟨hlen, hcons, hload, hrots, hfull⟩
        | some v =>
          have hv : v ≤ actsOf s := hload ⟨some v, false⟩ htmem rfl v rfl
          have hactslt : actsOf s < s.tasks.length :=
            actsOf_lt_of_not_acted htmem rfl
          have hacts1 : ∀ (c1 r1 : Nat),
              actsOf ⟨c1, r1, s.tasks.set e.1 ⟨some v, true⟩⟩ = actsOf s + 1 :=
            fun c1 r1 =>
              countP_set_flip _ s.tasks e.1 ⟨some v, false⟩ ⟨some v, true⟩ hget rfl rfl
          have hload1 : ∀ (c1 r1 : Nat),
              ∀ x ∈ (⟨c1, r1, s.tasks.set e.1 ⟨some v, true⟩⟩ : ConsState).tasks,
                x.acted = false → ∀ w, x.loaded = some w →
                w ≤ actsOf (⟨c1, r1, s.tasks.set e.1 ⟨some v, true⟩⟩ : ConsState) := by
            intro c1 r1 x hx hxact w hxw
            rw [hacts1 c1 r1]
            rcases List.mem_or_eq_of_mem_set hx with hx | hx
            · exact Nat.le_succ_of_le (hload x hx hxact w hxw)
            · subst hx
              simp at hxact
          by_cases hthr : v + 1 > m
          · have hred : consStep m s e
                = ⟨0, s.rots + 1, s.tasks.set e.1 ⟨some v, true⟩⟩ := by
              simp [consStep, hget2, hph, hthr]
            rw [hred]
            have hrots0 : s.rots = 0 := by
              rcases Nat.lt_or_ge s.rots 1 with h | h
              · omega
              · exfalso
                have h1 : s.rots = 1 := Nat.le_antisymm hrots h
                have := hfull h1
                omega
            have hacts_eq : actsOf s = m := by omega
            refine ⟨by simpa using hlen, by simp, hload1 0 (s.rots + 1),
              by show s.rots + 1 ≤ 1; omega, ?_⟩
            intro _
            show actsOf _ = (s.tasks.set e.1 ⟨some v, true⟩).length
            rw [hacts1 0 (s.rots + 1), List.length_set]
            omega
          · have hred : consStep m s e
                = ⟨v + 1, s.rots, s.tasks.set e.1 ⟨some v, true⟩⟩ := by
              simp [consStep, hget2, hph, hthr]
            rw [hred]
            refine ⟨by simpa using hlen, ?_, hload1 (v + 1) s.rots, hrots, ?_⟩
            · show v + 1 ≤ actsOf _
              rw [hacts1 (v + 1) s.rots]
              omega
            · intro hr
              exfalso
              have := hfull hr
              omega

theorem countP_acted_replicate (n : Nat) :
    (List.replicate n (⟨none, false⟩ : TaskSt)).countP (·.acted) = 0 := by
  induction n with
  | zero => rfl
  | succ k ih => simp [List.replicate, List.countP_cons, ih]

theorem consInit_inv (m n : Nat) (hn : n ≤ m + 1) : ConsInv m (consInit n) := by
  refine ⟨by simpa [consInit] using hn, ?_, ?_, by simp [consInit], ?_⟩
  · show (0 : Nat) ≤ actsOf (consInit n)
    exact Nat.zero_le _
  · intro t ht hact v hv
    have := List.eq_of_mem_replicate ht
    subst this
    simp at hv
  · intro hr
    simp [consInit] at hr

theorem consRun_inv (m n : Nat) (hn : n ≤ m + 1) (sched : List (Nat × Bool)) :
    ConsInv m (consRun m n sched) := by
  unfold consRun
  have main : ∀ (es : List (Nat × Bool)) (s : ConsState), ConsInv m s →
      ConsInv m (es.foldl (consStep m) s) := by
    intro es
    induction es with
    | nil => intro s hs; exact hs
    | cons e es ih =>
      intro s hs
      exact ih (consStep m s e) (consStep_inv m s e hs)
  exact main sched (consInit n) (consInit_inv m n hn)

/-- Claim C10 (confirmed): for every interleaving of `maxConcurrent + 1`
concurrent `admitRequest` calls — each decomposed into its plain atomic
load of the counter and its subsequent check/rotate/store — at most one
`CoolDown` rotation is triggered in total.  A rotating call must load a
value at least `maxConcurrent`, which requires that many fully completed
calls before its load, so with `maxConcurrent + 1` calls the rotating call
is the last to act and no second rotation can fire. -/
theorem admit_at_most_one_rotation (m : Nat) (sched : List (Nat × Bool)) :
    (consRun m (m + 1) sched).rots ≤ 1 :=
  (consRun_inv m (m + 1) (Nat.le_refl _) sched).2.2.2.1

end Clewdr
